import Mathlib

/-!
Shallow embedding of the Stochastic RSI indicator pipeline from
`src/indicators/stoch_rsi.py` (class `StochasticRSICalculator`), with
the theorems that settle the specification's claims about it.

Python floats are modelled as exact rationals (`ℚ`); Python `None` as
`Option.none`; the `StochRSIValue` dataclass as a structure of three
optional rationals.  Python list indexing `v[j]` on an in-range index is
modelled as `v.getD j _`; the checked variants below (`…E`, in the
`Option` monad) additionally model index errors, `None`-arithmetic
errors and division by zero, to settle the safety claim.
-/

namespace StochRSI

/-- The `StochRSIValue` dataclass: `%K`, `%D` and the underlying RSI,
each independently nullable. -/
structure StochRSIValue where
  k : Option ℚ
  d : Option ℚ
  rsi : Option ℚ
  deriving DecidableEq, Repr

/-- One RSI reading from the running average gain / average loss, the
body shared by the seed step and the Wilder-smoothing loop:
`if avg_loss == 0: 100 if avg_gain > 0 else 0; else 100 - 100/(1+rs)`. -/
def rsiVal (ag al : ℚ) : ℚ :=
  if al = 0 then (if 0 < ag then 100 else 0)
  else 100 - 100 / (1 + ag / al)

/-- The Wilder-smoothing loop of `_calculate_rsi`: consumes the
remaining (gain, loss) pairs, updating the running averages by
`avg = (avg*(period-1) + x) / period` and emitting an RSI value each
step. -/
def rsiLoop (p : ℕ) : ℚ → ℚ → List (ℚ × ℚ) → List ℚ
  | _, _, [] => []
  | ag, al, gl :: rest =>
    let ag2 := (ag * ((p : ℚ) - 1) + gl.1) / (p : ℚ)
    let al2 := (al * ((p : ℚ) - 1) + gl.2) / (p : ℚ)
    rsiVal ag2 al2 :: rsiLoop p ag2 al2 rest

/-- `StochasticRSICalculator._calculate_rsi`: Wilder-smoothed RSI.
Returns all-`none` when `len(closes) < period + 1`; otherwise `period`
leading `none`s, the seed RSI at index `period` (averages seeded as
plain means of the first `period` gains/losses), then the smoothing
loop over the remaining gains/losses. -/
def _calculate_rsi (closes : List ℚ) (period : ℕ) : List (Option ℚ) :=
  if closes.length < period + 1 then List.replicate closes.length none
  else
    let deltas := (List.range (closes.length - 1)).map
      (fun i => closes.getD (i + 1) 0 - closes.getD i 0)
    let gains := deltas.map (fun d => max d 0)
    let losses := deltas.map (fun d => |min d 0|)
    let avg_gain := (gains.take period).sum / (period : ℚ)
    let avg_loss := (losses.take period).sum / (period : ℚ)
    List.replicate period none ++
      some (rsiVal avg_gain avg_loss) ::
        (rsiLoop period avg_gain avg_loss
          ((gains.drop period).zip (losses.drop period))).map some

/-- The `period` positions `i-period+1 .. i` read by the window loops of
`_calculate_stoch_k` and `_calculate_sma` (as optional values). -/
def trailingWindow (v : List (Option ℚ)) (p i : ℕ) : List (Option ℚ) :=
  (List.range' (i + 1 - p) p).map (fun j => v.getD j none)

/-- The `window` list built by those loops: the non-null values among
the trailing `period` positions, in order. -/
def filtWindow (v : List (Option ℚ)) (p i : ℕ) : List ℚ :=
  (trailingWindow v p i).filterMap id

/-- Python `min` on a non-empty list (the empty case is never reached
by the guarded call sites). -/
def listMin : List ℚ → ℚ
  | [] => 0
  | x :: xs => xs.foldl min x

/-- Python `max` on a non-empty list. -/
def listMax : List ℚ → ℚ
  | [] => 0
  | x :: xs => xs.foldl max x

/-- Body of the `_calculate_stoch_k` loop at one index `i ≥ period - 1`:
skip (`none`) unless the window holds `period` non-null RSI values;
emit `50` on a degenerate (flat) window, else the normalized value. -/
def stochAt (v : List (Option ℚ)) (p i : ℕ) : Option ℚ :=
  let window := filtWindow v p i
  if window.length < p then none
  else
    let min_rsi := listMin window
    let max_rsi := listMax window
    if max_rsi = min_rsi then some 50
    else some (((v.getD i none).getD 0 - min_rsi) / (max_rsi - min_rsi) * 100)

/-- `StochasticRSICalculator._calculate_stoch_k`: raw `%K` of the RSI
sequence; indices below `period - 1` stay `none`. -/
def _calculate_stoch_k (v : List (Option ℚ)) (p : ℕ) : List (Option ℚ) :=
  (List.range v.length).map (fun i => if i + 1 < p then none else stochAt v p i)

/-- Body of the `_calculate_sma` loop at one index `i ≥ period - 1`:
emit the mean only when all `period` trailing values are non-null
(the filtered window has full length). -/
def smaAt (v : List (Option ℚ)) (p i : ℕ) : Option ℚ :=
  let window := filtWindow v p i
  if window.length = p then some (window.sum / (p : ℚ)) else none

/-- `StochasticRSICalculator._calculate_sma`: simple moving average
with strict window completeness; indices below `period - 1` stay
`none`. -/
def _calculate_sma (v : List (Option ℚ)) (p : ℕ) : List (Option ℚ) :=
  (List.range v.length).map (fun i => if i + 1 < p then none else smaAt v p i)

/-- The `StochasticRSICalculator` class: its four configuration
fields. -/
structure StochasticRSICalculator where
  rsi_length : ℕ
  stoch_length : ℕ
  k_smooth : ℕ
  d_smooth : ℕ
  deriving DecidableEq, Repr

/-- `StochasticRSICalculator.calculate`: the pipeline driver.  Guard:
all-null output when `len(closes) < rsi_length + stoch_length +
k_smooth + d_smooth - 2`; otherwise RSI → raw %K → SMA(k_smooth) →
SMA(d_smooth), assembled positionally. -/
def StochasticRSICalculator.calculate (self : StochasticRSICalculator)
    (closes : List ℚ) : List StochRSIValue :=
  if closes.length <
      self.rsi_length + self.stoch_length + self.k_smooth + self.d_smooth - 2 then
    List.replicate closes.length ⟨none, none, none⟩
  else
    let rsi_values := _calculate_rsi closes self.rsi_length
    let k_values := _calculate_stoch_k rsi_values self.stoch_length
    let k_smoothed := _calculate_sma k_values self.k_smooth
    let d_values := _calculate_sma k_smoothed self.d_smooth
    (List.range closes.length).map
      (fun i => ⟨k_smoothed.getD i none, d_values.getD i none, rsi_values.getD i none⟩)

/-- Module-level convenience function `calculate_stoch_rsi`. -/
def calculate_stoch_rsi (closes : List ℚ) (rsi_length stoch_length k_smooth d_smooth : ℕ) :
    List StochRSIValue :=
  (StochasticRSICalculator.mk rsi_length stoch_length k_smooth d_smooth).calculate closes

/-! ### Checked embedding: `none` models a Python runtime error
(`IndexError`, `TypeError` on `None` arithmetic, `ZeroDivisionError`,
`min`/`max` of an empty sequence).  Each stage mirrors its pure
counterpart with every fallible operation checked. -/

/-- Checked division: Python raises on a zero divisor. -/
def cdiv (a b : ℚ) : Option ℚ :=
  if b = 0 then none else some (a / b)

/-- Checked Python `min` (raises on an empty sequence). -/
def cmin (l : List ℚ) : Option ℚ :=
  match l with
  | [] => none
  | x :: xs => some (xs.foldl min x)

/-- Checked Python `max` (raises on an empty sequence). -/
def cmax (l : List ℚ) : Option ℚ :=
  match l with
  | [] => none
  | x :: xs => some (xs.foldl max x)

/-- Checked RSI reading: both divisions of the non-degenerate branch
are checked. -/
def rsiValE (ag al : ℚ) : Option ℚ :=
  if al = 0 then some (if 0 < ag then 100 else 0)
  else do
    let rs ← cdiv ag al
    let q ← cdiv 100 (1 + rs)
    some (100 - q)

/-- Checked Wilder loop over the index list `period+1 .. n-1`, reading
`gains[i-1]` / `losses[i-1]` exactly as the Python loop does. -/
def rsiLoopE (p : ℕ) (gains losses : List ℚ) : ℚ → ℚ → List ℕ → Option (List ℚ)
  | _, _, [] => some []
  | ag, al, i :: rest => do
    let g ← gains[i - 1]?
    let l ← losses[i - 1]?
    let ag2 ← cdiv (ag * ((p : ℚ) - 1) + g) (p : ℚ)
    let al2 ← cdiv (al * ((p : ℚ) - 1) + l) (p : ℚ)
    let v ← rsiValE ag2 al2
    let tl ← rsiLoopE p gains losses ag2 al2 rest
    some (v :: tl)

/-- Checked `_calculate_rsi`: the delta comprehension reads
`closes[i]` and `closes[i-1]` for `i` in `1 .. n-1`. -/
def _calculate_rsiE (closes : List ℚ) (period : ℕ) : Option (List (Option ℚ)) :=
  if closes.length < period + 1 then some (List.replicate closes.length none)
  else do
    let deltas ← (List.range' 1 (closes.length - 1)).mapM (fun i => do
      let a ← closes[i]?
      let b ← closes[i - 1]?
      some (a - b))
    let gains := deltas.map (fun d => max d 0)
    let losses := deltas.map (fun d => |min d 0|)
    let avg_gain ← cdiv (gains.take period).sum (period : ℚ)
    let avg_loss ← cdiv (losses.take period).sum (period : ℚ)
    let v0 ← rsiValE avg_gain avg_loss
    let rest ← rsiLoopE period gains losses avg_gain avg_loss
      (List.range' (period + 1) (closes.length - (period + 1)))
    some (List.replicate period none ++ some v0 :: rest.map some)

/-- Checked window collection: reads `v[j]` for each window position
`j`, keeping the non-null values in order. -/
def buildWindowE (v : List (Option ℚ)) : List ℕ → Option (List ℚ)
  | [] => some []
  | j :: js => do
    let x ← v[j]?
    let rest ← buildWindowE v js
    match x with
    | none => some rest
    | some rr => some (rr :: rest)

/-- Checked stochastic body: checked window reads, checked `min`/`max`,
checked read of `rsi_values[i]`, checked `None` arithmetic, checked
division. -/
def stochAtE (v : List (Option ℚ)) (p i : ℕ) : Option (Option ℚ) := do
  let window ← buildWindowE v (List.range' (i + 1 - p) p)
  if window.length < p then some none
  else do
    let min_rsi ← cmin window
    let max_rsi ← cmax window
    if max_rsi = min_rsi then some (some 50)
    else do
      let ri ← v[i]?
      let rv ← ri
      let q ← cdiv (rv - min_rsi) (max_rsi - min_rsi)
      some (some (q * 100))

/-- Checked `_calculate_stoch_k`. -/
def _calculate_stoch_kE (v : List (Option ℚ)) (p : ℕ) : Option (List (Option ℚ)) :=
  (List.range v.length).mapM (fun i => if i + 1 < p then some none else stochAtE v p i)

/-- Checked SMA body: checked window reads and checked division. -/
def smaAtE (v : List (Option ℚ)) (p i : ℕ) : Option (Option ℚ) := do
  let window ← buildWindowE v (List.range' (i + 1 - p) p)
  if window.length = p then do
    let q ← cdiv window.sum (p : ℚ)
    some (some q)
  else some none

/-- Checked `_calculate_sma`. -/
def _calculate_smaE (v : List (Option ℚ)) (p : ℕ) : Option (List (Option ℚ)) :=
  (List.range v.length).mapM (fun i => if i + 1 < p then some none else smaAtE v p i)

/-- Checked pipeline driver: checked reads `k_smoothed[i]`,
`d_values[i]`, `rsi_values[i]` in the assembly loop. -/
def calculateE (self : StochasticRSICalculator) (closes : List ℚ) :
    Option (List StochRSIValue) :=
  if closes.length <
      self.rsi_length + self.stoch_length + self.k_smooth + self.d_smooth - 2 then
    some (List.replicate closes.length ⟨none, none, none⟩)
  else do
    let rsi_values ← _calculate_rsiE closes self.rsi_length
    let k_values ← _calculate_stoch_kE rsi_values self.stoch_length
    let k_smoothed ← _calculate_smaE k_values self.k_smooth
    let d_values ← _calculate_smaE k_smoothed self.d_smooth
    (List.range closes.length).mapM (fun i => do
      let kv ← k_smoothed[i]?
      let dv ← d_values[i]?
      let rv ← rsi_values[i]?
      some (StochRSIValue.mk kv dv rv))

/-- C1: for every configuration and every price sequence, `calculate`
returns a sequence of exactly the input's length, in both the
short-circuit branch and the full-pipeline branch. -/
theorem calculate_length (self : StochasticRSICalculator) (closes : List ℚ) :
    (self.calculate closes).length = closes.length := by
  unfold StochasticRSICalculator.calculate
  split <;> simp

/-! ### Generic helper lemmas about `getD`, windows and filtered counts -/

theorem getD_map_range {α : Type} (f : ℕ → α) (n i : ℕ) (d : α) :
    ((List.range n).map f).getD i d = if i < n then f i else d := by
  simp only [List.getD_eq_getElem?_getD, List.getElem?_map]
  by_cases h : i < n
  · rw [List.getElem?_range h]
    simp [h]
  · rw [List.getElem?_eq_none (by simpa using h)]
    simp [h]

theorem getD_replicate {α : Type} (a d : α) (n i : ℕ) :
    (List.replicate n a).getD i d = if i < n then a else d := by
  simp only [List.getD_eq_getElem?_getD, List.getElem?_replicate]
  split <;> rfl

theorem getD_isSome_of_all {L : List (Option ℚ)} (h : ∀ x ∈ L, x.isSome)
    (i : ℕ) (hi : i < L.length) : (L.getD i none).isSome := by
  rw [List.getD_eq_getElem?_getD, List.getElem?_eq_getElem hi]
  exact h _ (List.getElem_mem hi)

/-- If the source sequence is `none` strictly below `r`, a window of `p`
positions starting at `a` holds at most `a + p - r` non-null values. -/
theorem countSome_le (v : List (Option ℚ)) (r : ℕ)
    (hv : ∀ j, j < r → v.getD j none = none) :
    ∀ p a, (((List.range' a p).map (fun j => v.getD j none)).filterMap id).length
      ≤ a + p - r := by
  intro p
  induction p with
  | zero => intro a; simp
  | succ p ih =>
    intro a
    rcases Nat.lt_or_ge a r with h | h
    · rw [List.range'_succ, List.map_cons, List.filterMap_cons]
      simp only [id_eq, hv a h]
      have := ih (a + 1)
      omega
    · have h1 := List.length_filterMap_le id
        ((List.range' a (p + 1)).map (fun j => v.getD j none))
      simp only [List.length_map, List.length_range'] at h1
      omega

/-- If the source sequence is non-null from `r` on, a window of `p`
in-range positions starting at `a ≥ r` holds exactly `p` non-null
values. -/
theorem countSome_full (v : List (Option ℚ)) (r : ℕ)
    (hv : ∀ j, r ≤ j → j < v.length → (v.getD j none).isSome) :
    ∀ p a, r ≤ a → a + p ≤ v.length →
      (((List.range' a p).map (fun j => v.getD j none)).filterMap id).length = p := by
  intro p
  induction p with
  | zero => intro a _ _; simp
  | succ p ih =>
    intro a ha hlen
    rcases Option.isSome_iff_exists.mp (hv a ha (by omega)) with ⟨x, hx⟩
    rw [List.range'_succ, List.map_cons, List.filterMap_cons]
    simp only [id_eq, hx, List.length_cons]
    rw [ih (a + 1) (by omega) (by omega)]

theorem length_filterMap_id_all_some {L : List (Option ℚ)}
    (h : ∀ x ∈ L, x.isSome) : (L.filterMap id).length = L.length := by
  induction L with
  | nil => rfl
  | cons x t ih =>
    rcases Option.isSome_iff_exists.mp (h x (List.mem_cons_self x t)) with ⟨y, hy⟩
    subst hy
    simp only [List.filterMap_cons, id_eq, List.length_cons]
    rw [ih (fun z hz => h z (List.mem_cons_of_mem _ hz))]

theorem length_filterMap_id_lt_of_none {L : List (Option ℚ)}
    (h : none ∈ L) : (L.filterMap id).length < L.length := by
  induction L with
  | nil => cases h
  | cons x t ih =>
    cases x with
    | none =>
      simp only [List.filterMap_cons, id_eq, List.length_cons]
      exact Nat.lt_succ_of_le (List.length_filterMap_le id t)
    | some y =>
      have ht : none ∈ t := by
        rcases List.mem_cons.mp h with h1 | h1
        · exact absurd h1 (by simp)
        · exact h1
      simp only [List.filterMap_cons, id_eq, List.length_cons]
      exact Nat.succ_lt_succ (ih ht)

/-! ### Stage length lemmas -/

theorem rsiLoop_length (p : ℕ) :
    ∀ (ag al : ℚ) (l : List (ℚ × ℚ)), (rsiLoop p ag al l).length = l.length := by
  intro ag al l
  induction l generalizing ag al with
  | nil => rfl
  | cons gl rest ih => simp [rsiLoop, ih]

theorem _calculate_rsi_length (closes : List ℚ) (p : ℕ) :
    (_calculate_rsi closes p).length = closes.length := by
  rw [_calculate_rsi]
  split
  · simp
  · rename_i h
    simp only [List.length_append, List.length_replicate, List.length_cons,
      List.length_map, rsiLoop_length, List.length_zip, List.length_drop,
      List.length_range]
    omega

theorem _calculate_stoch_k_length (v : List (Option ℚ)) (p : ℕ) :
    (_calculate_stoch_k v p).length = v.length := by
  simp [_calculate_stoch_k]

theorem _calculate_sma_length (v : List (Option ℚ)) (p : ℕ) :
    (_calculate_sma v p).length = v.length := by
  simp [_calculate_sma]

/-! ### Null-prefix and non-null-suffix lemmas for each stage -/

/-- Shape of the RSI output in the computing branch: `period` leading
`none`s followed by only non-null values. -/
theorem _calculate_rsi_eq (closes : List ℚ) (p : ℕ) (h : p + 1 ≤ closes.length) :
    ∃ (ag al : ℚ) (rest : List ℚ), _calculate_rsi closes p =
      List.replicate p none ++ some (rsiVal ag al) :: rest.map some ∧
      rest.length = closes.length - 1 - p := by
  rw [_calculate_rsi, if_neg (by omega)]
  refine ⟨_, _, _, rfl, ?_⟩
  simp only [rsiLoop_length, List.length_zip, List.length_drop, List.length_map,
    List.length_range]
  omega

theorem rsi_noneBelow (closes : List ℚ) (p : ℕ) :
    ∀ j, j < p → (_calculate_rsi closes p).getD j none = none := by
  intro j hj
  by_cases h : closes.length < p + 1
  · rw [_calculate_rsi, if_pos h, getD_replicate]
    split <;> rfl
  · obtain ⟨ag, al, rest, heq, -⟩ := _calculate_rsi_eq closes p (by omega)
    rw [heq, List.getD_eq_getElem?_getD,
      List.getElem?_append_left (by simpa using hj)]
    simp [List.getElem?_replicate, hj]

theorem rsi_someFrom (closes : List ℚ) (p : ℕ) (hlen : p + 1 ≤ closes.length) :
    ∀ j, p ≤ j → j < closes.length → ((_calculate_rsi closes p).getD j none).isSome := by
  intro j hj1 hj2
  obtain ⟨ag, al, rest, heq, hlen2⟩ := _calculate_rsi_eq closes p hlen
  rw [heq, List.getD_eq_getElem?_getD,
    List.getElem?_append_right (by simpa using hj1)]
  simp only [List.length_replicate]
  rw [← List.getD_eq_getElem?_getD]
  apply getD_isSome_of_all
  · intro x hx
    rcases List.mem_cons.mp hx with h1 | h1
    · simp [h1]
    · rcases List.mem_map.mp h1 with ⟨y, -, hy⟩
      simp [← hy]
  · simp only [List.length_cons, List.length_map, hlen2]
    omega

theorem stoch_noneBelow (v : List (Option ℚ)) (p r : ℕ) (hp : 1 ≤ p)
    (hv : ∀ j, j < r → v.getD j none = none) :
    ∀ i, i < r + p - 1 → (_calculate_stoch_k v p).getD i none = none := by
  intro i hi
  rw [_calculate_stoch_k, getD_map_range]
  split
  · split
    · rfl
    · rename_i hin hip
      have hcnt := countSome_le v r hv p (i + 1 - p)
      have hlt : (filtWindow v p i).length < p := by
        simp only [filtWindow, trailingWindow]
        omega
      simp only [stochAt]
      rw [if_pos hlt]
  · rfl

theorem stoch_someFrom (v : List (Option ℚ)) (p r : ℕ) (hp : 1 ≤ p)
    (hv : ∀ j, r ≤ j → j < v.length → (v.getD j none).isSome) :
    ∀ i, r + p - 1 ≤ i → i < v.length →
      ((_calculate_stoch_k v p).getD i none).isSome := by
  intro i hi hin
  rw [_calculate_stoch_k, getD_map_range, if_pos hin, if_neg (by omega)]
  have hcnt := countSome_full v r hv p (i + 1 - p) (by omega) (by omega)
  simp only [stochAt]
  rw [if_neg (by simp only [filtWindow, trailingWindow]; omega)]
  split <;> rfl

theorem sma_noneBelow (v : List (Option ℚ)) (p r : ℕ) (hp : 1 ≤ p)
    (hv : ∀ j, j < r → v.getD j none = none) :
    ∀ i, i < r + p - 1 → (_calculate_sma v p).getD i none = none := by
  intro i hi
  rw [_calculate_sma, getD_map_range]
  split
  · split
    · rfl
    · rename_i hin hip
      have hcnt := countSome_le v r hv p (i + 1 - p)
      have hne : ¬ (filtWindow v p i).length = p := by
        simp only [filtWindow, trailingWindow]
        omega
      simp only [smaAt]
      rw [if_neg hne]
  · rfl

theorem sma_someFrom (v : List (Option ℚ)) (p r : ℕ) (hp : 1 ≤ p)
    (hv : ∀ j, r ≤ j → j < v.length → (v.getD j none).isSome) :
    ∀ i, r + p - 1 ≤ i → i < v.length →
      ((_calculate_sma v p).getD i none).isSome := by
  intro i hi hin
  rw [_calculate_sma, getD_map_range, if_pos hin, if_neg (by omega)]
  have hcnt := countSome_full v r hv p (i + 1 - p) (by omega) (by omega)
  simp only [smaAt]
  rw [if_pos (by simp only [filtWindow, trailingWindow]; omega)]
  rfl

/-! ### The pipeline in its computing branch, with the lets resolved -/

theorem calculate_eq (r s k d : ℕ) (closes : List ℚ)
    (h : ¬ closes.length < r + s + k + d - 2) :
    (StochasticRSICalculator.mk r s k d).calculate closes =
      (List.range closes.length).map (fun i =>
        ⟨(_calculate_sma (_calculate_stoch_k (_calculate_rsi closes r) s) k).getD i none,
         (_calculate_sma (_calculate_sma (_calculate_stoch_k
           (_calculate_rsi closes r) s) k) d).getD i none,
         (_calculate_rsi closes r).getD i none⟩) := by
  rw [StochasticRSICalculator.calculate, if_neg h]

/-- C2 (amended): below index `rsi_length + stoch_length + k_smooth +
d_smooth - 3` the `d` field of every reading is null; the `rsi` and `k`
fields can be non-null earlier. -/
theorem calculate_d_noneBelow (r s k d : ℕ) (hr : 1 ≤ r) (hs : 1 ≤ s)
    (hk : 1 ≤ k) (hd : 1 ≤ d) (closes : List ℚ) (i : ℕ)
    (hi : i < r + s + k + d - 3) :
    (((StochasticRSICalculator.mk r s k d).calculate closes).getD i
      ⟨none, none, none⟩).d = none := by
  by_cases hg : closes.length < r + s + k + d - 2
  · rw [StochasticRSICalculator.calculate, if_pos hg, getD_replicate]
    split <;> rfl
  · rw [calculate_eq r s k d closes hg, getD_map_range]
    split
    · have h1 := rsi_noneBelow closes r
      have h2 := stoch_noneBelow (_calculate_rsi closes r) s r hs h1
      have h3 := sma_noneBelow (_calculate_stoch_k (_calculate_rsi closes r) s) k
        (r + s - 1) hk h2
      have h4 := sma_noneBelow (_calculate_sma (_calculate_stoch_k
        (_calculate_rsi closes r) s) k) d (r + s - 1 + k - 1) hd h3
      exact h4 i (by omega)
    · rfl

/-- Witness for the amended C2 at a concrete input. -/
theorem calculate_d_noneBelow_witness :
    (((StochasticRSICalculator.mk 2 2 1 1).calculate [1, 2, 3, 4]).getD 2
      ⟨none, none, none⟩).d = none :=
  calculate_d_noneBelow 2 2 1 1 (by decide) (by decide) (by decide) (by decide)
    [1, 2, 3, 4] 2 (by decide)

/-- Concrete run of the pipeline with configuration `(2, 2, 1, 2)`. -/
theorem calculate_eval_2212 :
    (StochasticRSICalculator.mk 2 2 1 2).calculate [1, 2, 3, 4, 5] =
      [⟨none, none, none⟩, ⟨none, none, none⟩, ⟨none, none, some 100⟩,
       ⟨some 50, none, some 100⟩, ⟨some 50, some 50, some 100⟩] := by
  have h1 : _calculate_rsi [1, 2, 3, 4, 5] 2 = [none, none, some 100, some 100, some 100] := by
    rw [_calculate_rsi, if_neg (by norm_num)]
    norm_num [List.range_succ, rsiLoop, rsiVal, max_def, min_def, abs, List.replicate]
  have h2 : _calculate_stoch_k [none, none, some 100, some 100, some 100] 2 =
      [none, none, none, some 50, some 50] := by
    norm_num [_calculate_stoch_k, stochAt, filtWindow, trailingWindow, listMin, listMax,
      List.range_succ, List.range'_succ, List.filterMap_cons, max_def, min_def]
  have h3 : _calculate_sma [none, none, none, some 50, some 50] 1 =
      [none, none, none, some 50, some 50] := by
    norm_num [_calculate_sma, smaAt, filtWindow, trailingWindow,
      List.range_succ, List.range'_succ, List.filterMap_cons]
  have h4 : _calculate_sma [none, none, none, some 50, some 50] 2 =
      [none, none, none, none, some 50] := by
    norm_num [_calculate_sma, smaAt, filtWindow, trailingWindow,
      List.range_succ, List.range'_succ, List.filterMap_cons]
  rw [StochasticRSICalculator.calculate, if_neg (by norm_num)]
  simp only [h1, h2, h3, h4]
  norm_num [List.range_succ]

/-- Counterexample to C2 as stated: with configuration `(2, 2, 1, 2)`
the threshold is `4`, yet the reading at index `2` has a non-null `rsi`
field and the reading at index `3` has a non-null `k` field. -/
theorem calculate_noneBelow_counterexample :
    2 < 2 + 2 + 1 + 2 - 3 ∧ 3 < 2 + 2 + 1 + 2 - 3 ∧
    (((StochasticRSICalculator.mk 2 2 1 2).calculate [1, 2, 3, 4, 5]).getD 2
      ⟨none, none, none⟩).rsi = some 100 ∧
    (((StochasticRSICalculator.mk 2 2 1 2).calculate [1, 2, 3, 4, 5]).getD 3
      ⟨none, none, none⟩).k = some 50 := by
  refine ⟨by norm_num, by norm_num, ?_, ?_⟩ <;> rw [calculate_eval_2212] <;> rfl

/-- C3: a price sequence shorter than `rsi_length + stoch_length +
k_smooth + d_smooth - 2` short-circuits to an all-null sequence of the
same length. -/
theorem calculate_insufficient_all_null (r s k d : ℕ) (closes : List ℚ)
    (h : closes.length < r + s + k + d - 2) :
    (StochasticRSICalculator.mk r s k d).calculate closes =
      List.replicate closes.length ⟨none, none, none⟩ := by
  rw [StochasticRSICalculator.calculate, if_pos h]

/-- Witness for C3 at a concrete input. -/
theorem calculate_insufficient_all_null_witness :
    (StochasticRSICalculator.mk 14 14 3 3).calculate [1, 2, 3] =
      List.replicate 3 ⟨none, none, none⟩ :=
  calculate_insufficient_all_null 14 14 3 3 [1, 2, 3] (by decide)

/-- Whenever the guard passes, the reading at index `r + s + k + d - 3`
has a non-null `d` field: shared engine for the corrected C4. -/
theorem calculate_d_isSome_of_guard (r s k d : ℕ) (hr : 1 ≤ r) (hs : 1 ≤ s)
    (hk : 1 ≤ k) (hd : 1 ≤ d) (closes : List ℚ)
    (hn : r + s + k + d - 2 ≤ closes.length) :
    ((((StochasticRSICalculator.mk r s k d).calculate closes).getD
      (r + s + k + d - 3) ⟨none, none, none⟩).d).isSome := by
  have e1 := _calculate_rsi_length closes r
  have e2 := _calculate_stoch_k_length (_calculate_rsi closes r) s
  have e3 := _calculate_sma_length (_calculate_stoch_k (_calculate_rsi closes r) s) k
  rw [calculate_eq r s k d closes (by omega), getD_map_range, if_pos (by omega)]
  have h1 := rsi_someFrom closes r (by omega)
  have h2 := stoch_someFrom (_calculate_rsi closes r) s r hs
    (fun j hj hjl => h1 j hj (by omega))
  have h3 := sma_someFrom (_calculate_stoch_k (_calculate_rsi closes r) s) k
    (r + s - 1) hk (fun j hj hjl => h2 j hj (by omega))
  have h4 := sma_someFrom (_calculate_sma (_calculate_stoch_k
    (_calculate_rsi closes r) s) k) d (r + s - 1 + k - 1) hd
    (fun j hj hjl => h3 j hj (by omega))
  exact h4 (r + s + k + d - 3) (by omega) (by omega)

/-- C4 (amended): the guard is exact, not looser: every input that
passes the guard yields a non-null `d` (hence a not-all-null reading)
at index `r + s + k + d - 3`; no guard-passing input produces an
all-null output through the stage logic. -/
theorem calculate_guard_exact (r s k d : ℕ) (hr : 1 ≤ r) (hs : 1 ≤ s)
    (hk : 1 ≤ k) (hd : 1 ≤ d) (closes : List ℚ)
    (hn : r + s + k + d - 2 ≤ closes.length) :
    ((((StochasticRSICalculator.mk r s k d).calculate closes).getD
      (r + s + k + d - 3) ⟨none, none, none⟩).d).isSome :=
  calculate_d_isSome_of_guard r s k d hr hs hk hd closes hn

/-- Witness for the amended C4 at a concrete input. -/
theorem calculate_guard_exact_witness :
    ((((StochasticRSICalculator.mk 2 2 1 1).calculate [1, 2, 3, 4]).getD 3
      ⟨none, none, none⟩).d).isSome :=
  calculate_guard_exact 2 2 1 1 (by decide) (by decide) (by decide) (by decide)
    [1, 2, 3, 4] (by decide)

/-- Counterexample to C4 as stated: no positive configuration and no
guard-passing price sequence yield an all-null full-pipeline result. -/
theorem calculate_all_null_despite_guard_counterexample :
    ¬ ∃ (r s k d : ℕ) (closes : List ℚ), 1 ≤ r ∧ 1 ≤ s ∧ 1 ≤ k ∧ 1 ≤ d ∧
      r + s + k + d - 2 ≤ closes.length ∧
      ∀ i, i < closes.length →
        ((StochasticRSICalculator.mk r s k d).calculate closes).getD i
          ⟨none, none, none⟩ = ⟨none, none, none⟩ := by
  rintro ⟨r, s, k, d, closes, hr, hs, hk, hd, hn, hall⟩
  have h := calculate_d_isSome_of_guard r s k d hr hs hk hd closes hn
  rw [hall (r + s + k + d - 3) (by omega)] at h
  simp at h

/-! ### Folded min/max facts for the stochastic window -/

theorem foldl_min_le_init (xs : List ℚ) (a : ℚ) : xs.foldl min a ≤ a := by
  induction xs generalizing a with
  | nil => simp
  | cons x t ih => exact le_trans (ih (min a x)) (min_le_left a x)

theorem foldl_min_le_mem (xs : List ℚ) (a x : ℚ) (hx : x ∈ xs) : xs.foldl min a ≤ x := by
  induction xs generalizing a with
  | nil => cases hx
  | cons y t ih =>
    rcases List.mem_cons.mp hx with h | h
    · subst h
      exact le_trans (foldl_min_le_init t (min a x)) (min_le_right a x)
    · exact ih (min a y) h

theorem foldl_min_choice (xs : List ℚ) (a : ℚ) :
    xs.foldl min a = a ∨ xs.foldl min a ∈ xs := by
  induction xs generalizing a with
  | nil => exact Or.inl rfl
  | cons y t ih =>
    rcases ih (min a y) with h | h
    · rcases min_choice a y with h2 | h2
      · exact Or.inl (by rw [List.foldl_cons, h, h2])
      · exact Or.inr (by rw [List.foldl_cons, h, h2]; exact List.mem_cons_self y t)
    · exact Or.inr (List.mem_cons_of_mem y h)

theorem init_le_foldl_max (xs : List ℚ) (a : ℚ) : a ≤ xs.foldl max a := by
  induction xs generalizing a with
  | nil => simp
  | cons x t ih => exact le_trans (le_max_left a x) (ih (max a x))

theorem mem_le_foldl_max (xs : List ℚ) (a x : ℚ) (hx : x ∈ xs) : x ≤ xs.foldl max a := by
  induction xs generalizing a with
  | nil => cases hx
  | cons y t ih =>
    rcases List.mem_cons.mp hx with h | h
    · subst h
      exact le_trans (le_max_right a x) (init_le_foldl_max t (max a x))
    · exact ih (max a y) h

theorem foldl_max_choice (xs : List ℚ) (a : ℚ) :
    xs.foldl max a = a ∨ xs.foldl max a ∈ xs := by
  induction xs generalizing a with
  | nil => exact Or.inl rfl
  | cons y t ih =>
    rcases ih (max a y) with h | h
    · rcases max_choice a y with h2 | h2
      · exact Or.inl (by rw [List.foldl_cons, h, h2])
      · exact Or.inr (by rw [List.foldl_cons, h, h2]; exact List.mem_cons_self y t)
    · exact Or.inr (List.mem_cons_of_mem y h)

theorem listMin_le (l : List ℚ) (x : ℚ) (hx : x ∈ l) : listMin l ≤ x := by
  cases l with
  | nil => cases hx
  | cons y t =>
    rcases List.mem_cons.mp hx with h | h
    · subst h; exact foldl_min_le_init t x
    · exact foldl_min_le_mem t y x h

theorem le_listMax (l : List ℚ) (x : ℚ) (hx : x ∈ l) : x ≤ listMax l := by
  cases l with
  | nil => cases hx
  | cons y t =>
    rcases List.mem_cons.mp hx with h | h
    · subst h; exact init_le_foldl_max t x
    · exact mem_le_foldl_max t y x h

theorem listMin_mem (l : List ℚ) (hl : l ≠ []) : listMin l ∈ l := by
  cases l with
  | nil => exact absurd rfl hl
  | cons y t =>
    rcases foldl_min_choice t y with h | h
    · rw [listMin, h]; exact List.mem_cons_self y t
    · rw [listMin]; exact List.mem_cons_of_mem y h

theorem listMax_mem (l : List ℚ) (hl : l ≠ []) : listMax l ∈ l := by
  cases l with
  | nil => exact absurd rfl hl
  | cons y t =>
    rcases foldl_max_choice t y with h | h
    · rw [listMax, h]; exact List.mem_cons_self y t
    · rw [listMax]; exact List.mem_cons_of_mem y h

/-- C5: at an index whose trailing window holds `period` non-null RSI
values, the raw `%K` is `50` exactly when the window is degenerate
(`max = min`), and `(rsi[i] - min) / (max - min) * 100` otherwise; in
particular an all-equal window yields `50`. -/
theorem stoch_k_window_spec (v : List (Option ℚ)) (s i : ℕ) (hs : 1 ≤ s)
    (hi : i < v.length) (hsi : s ≤ i + 1)
    (hwin : (filtWindow v s i).length = s) :
    (listMax (filtWindow v s i) = listMin (filtWindow v s i) →
      (_calculate_stoch_k v s).getD i none = some 50) ∧
    (listMax (filtWindow v s i) ≠ listMin (filtWindow v s i) →
      (_calculate_stoch_k v s).getD i none =
        some (((v.getD i none).getD 0 - listMin (filtWindow v s i)) /
          (listMax (filtWindow v s i) - listMin (filtWindow v s i)) * 100)) ∧
    ((∀ x ∈ filtWindow v s i, ∀ y ∈ filtWindow v s i, x = y) →
      (_calculate_stoch_k v s).getD i none = some 50) := by
  rw [_calculate_stoch_k, getD_map_range, if_pos hi, if_neg (by omega)]
  simp only [stochAt]
  rw [if_neg (by omega)]
  refine ⟨fun hdeg => by rw [if_pos hdeg], fun hne => by rw [if_neg hne], fun hall => ?_⟩
  have hne : filtWindow v s i ≠ [] := by
    intro h0
    rw [h0] at hwin
    simp at hwin
    omega
  exact if_pos (hall _ (listMax_mem _ hne) _ (listMin_mem _ hne))

/-- Witness for C5 at a concrete input: a flat window of two equal RSI
values produces the neutral `%K` of `50`. -/
theorem stoch_k_window_spec_witness :
    (_calculate_stoch_k [some 70, some 70] 2).getD 1 none = some 50 := by
  have hw : filtWindow [some 70, some 70] 2 1 = [70, 70] := rfl
  refine (stoch_k_window_spec [some 70, some 70] 2 1 (by decide) (by decide)
    (by decide) (by rw [hw]; rfl)).2.2 ?_
  intro x hx y hy
  rw [hw] at hx hy
  rcases List.mem_cons.mp hx with h1 | h1 <;> rcases List.mem_cons.mp hy with h2 | h2 <;>
    simp_all

/-- C6: whenever the running average loss is zero the RSI reading is
`100` for positive average gain and `0` otherwise (this is how every
index's value is produced); consequently a flat price series has RSI
exactly `0` at the first valid index `period`. -/
theorem rsi_zero_loss_flat :
    (∀ ag al : ℚ, al = 0 → rsiVal ag al = if 0 < ag then 100 else 0) ∧
    (∀ (p n : ℕ) (c : ℚ), 1 ≤ p → p + 1 ≤ n →
      (_calculate_rsi (List.replicate n c) p).getD p none = some 0) := by
  constructor
  · intro ag al h
    rw [rsiVal, if_pos h]
  · intro p n c hp hn
    have hlen : (List.replicate n c).length = n := List.length_replicate n c
    have hδ : (List.range ((List.replicate n c).length - 1)).map
        (fun i => (List.replicate n c).getD (i + 1) 0 - (List.replicate n c).getD i 0) =
        List.replicate ((List.replicate n c).length - 1) (0 : ℚ) := by
      rw [List.eq_replicate_iff]
      refine ⟨by simp, ?_⟩
      intro b hb
      rcases List.mem_map.mp hb with ⟨j, hj, hfb⟩
      have hj2 : j < (List.replicate n c).length - 1 := List.mem_range.mp hj
      rw [getD_replicate, getD_replicate, if_pos (by omega), if_pos (by omega)] at hfb
      rw [← hfb, sub_self]
    rw [_calculate_rsi, if_neg (by omega)]
    simp only [hδ, List.map_replicate, List.take_replicate, List.sum_replicate,
      smul_zero, zero_div, max_self, min_self, abs_zero]
    rw [List.getD_eq_getElem?_getD, List.getElem?_append_right (by simp)]
    simp [rsiVal]

/-- Witness for C6 at concrete inputs. -/
theorem rsi_zero_loss_flat_witness :
    rsiVal 5 0 = 100 ∧ (_calculate_rsi (List.replicate 3 (7 : ℚ)) 2).getD 2 none = some 0 := by
  constructor
  · rw [rsi_zero_loss_flat.1 5 0 rfl]
    norm_num
  · exact rsi_zero_loss_flat.2 2 3 7 (by decide) (by decide)

/-- C7: the SMA stage is null below `period - 1`; at `i ≥ period - 1`
it is null exactly when some trailing position is null, and otherwise
equals the arithmetic mean of the `period` trailing values. -/
theorem sma_spec (v : List (Option ℚ)) (p : ℕ) (hp : 1 ≤ p) (i : ℕ) (hi : i < v.length) :
    (i + 1 < p → (_calculate_sma v p).getD i none = none) ∧
    (p ≤ i + 1 →
      ((∃ j, i + 1 - p ≤ j ∧ j ≤ i ∧ v.getD j none = none) →
        (_calculate_sma v p).getD i none = none) ∧
      ((∀ j, i + 1 - p ≤ j → j ≤ i → (v.getD j none).isSome) →
        (_calculate_sma v p).getD i none =
          some ((filtWindow v p i).sum / (p : ℚ)))) := by
  refine ⟨fun h => ?_, fun hpi => ⟨?_, ?_⟩⟩
  · rw [_calculate_sma, getD_map_range, if_pos hi, if_pos h]
  · rintro ⟨j, hj1, hj2, hjnone⟩
    rw [_calculate_sma, getD_map_range, if_pos hi, if_neg (by omega)]
    have hmem : none ∈ trailingWindow v p i := by
      rw [trailingWindow]
      exact List.mem_map.mpr ⟨j, List.mem_range'_1.mpr ⟨hj1, by omega⟩, hjnone⟩
    have htl : (trailingWindow v p i).length = p := by simp [trailingWindow]
    have hlt : (filtWindow v p i).length < p := by
      have h1 := length_filterMap_id_lt_of_none hmem
      simpa [filtWindow, htl] using h1
    simp only [smaAt]
    rw [if_neg (by omega)]
  · intro hall
    rw [_calculate_sma, getD_map_range, if_pos hi, if_neg (by omega)]
    have htl : (trailingWindow v p i).length = p := by simp [trailingWindow]
    have hfl : (filtWindow v p i).length = p := by
      have h1 : (List.filterMap id (trailingWindow v p i)).length =
          (trailingWindow v p i).length := by
        apply length_filterMap_id_all_some
        intro x hx
        rw [trailingWindow] at hx
        rcases List.mem_map.mp hx with ⟨j, hj, hfx⟩
        rcases List.mem_range'_1.mp hj with ⟨hj1, hj2⟩
        rw [← hfx]
        exact hall j hj1 (by omega)
      simpa [filtWindow, htl] using h1
    simp only [smaAt]
    rw [if_pos hfl]

/-- Witness for C7 at a concrete input: a complete window of `10` and
`20` averages to `15`. -/
theorem sma_spec_witness :
    (_calculate_sma [some 10, some 20] 2).getD 1 none = some 15 := by
  have hall : ∀ j, 1 + 1 - 2 ≤ j → j ≤ 1 →
      (([some 10, some 20] : List (Option ℚ)).getD j none).isSome := by
    intro j h1 h2
    interval_cases j <;> decide
  have h := ((sma_spec [some 10, some 20] 2 (by decide) 1 (by decide)).2 (by decide)).2 hall
  rw [h]
  norm_num [filtWindow, trailingWindow, List.range'_succ, List.filterMap_cons]

/-! ### Range bounds: every produced value lies in [0, 100] -/

theorem getD_eq_some_mem {L : List (Option ℚ)} {i : ℕ} {x : ℚ}
    (h : L.getD i none = some x) : some x ∈ L := by
  by_cases hi : i < L.length
  · rw [List.getD_eq_getElem?_getD, List.getElem?_eq_getElem hi] at h
    simp only [Option.getD_some] at h
    rw [← h]
    exact List.getElem_mem hi
  · rw [List.getD_eq_getElem?_getD, List.getElem?_eq_none (by omega)] at h
    cases h

theorem sum_bounds (L : List ℚ) (lo hi : ℚ) (h : ∀ y ∈ L, lo ≤ y ∧ y ≤ hi) :
    lo * L.length ≤ L.sum ∧ L.sum ≤ hi * L.length := by
  induction L with
  | nil => simp
  | cons y t ih =>
    have hy := h y (List.mem_cons_self y t)
    have ht := ih (fun z hz => h z (List.mem_cons_of_mem _ hz))
    simp only [List.sum_cons, List.length_cons]
    constructor <;> push_cast <;> nlinarith [ht.1, ht.2, hy.1, hy.2]

theorem rsiVal_bounds (ag al : ℚ) (hag : 0 ≤ ag) (hal : 0 ≤ al) :
    0 ≤ rsiVal ag al ∧ rsiVal ag al ≤ 100 := by
  rw [rsiVal]
  split
  · split <;> norm_num
  · rename_i h
    have hal2 : 0 < al := lt_of_le_of_ne hal (Ne.symm h)
    have hrs : 0 ≤ ag / al := div_nonneg hag hal2.le
    have h2 : 100 / (1 + ag / al) ≤ 100 := div_le_self (by norm_num) (by linarith)
    have h3 : 0 < 100 / (1 + ag / al) := by positivity
    constructor <;> linarith

theorem rsiLoop_mem_bounds (p : ℕ) (hp : 1 ≤ p) (gls : List (ℚ × ℚ)) :
    ∀ (ag al : ℚ), 0 ≤ ag → 0 ≤ al → (∀ gl ∈ gls, 0 ≤ gl.1 ∧ 0 ≤ gl.2) →
      ∀ x ∈ rsiLoop p ag al gls, 0 ≤ x ∧ x ≤ 100 := by
  induction gls with
  | nil =>
    intro ag al _ _ _ x hx
    cases hx
  | cons gl rest ih =>
    intro ag al hag hal hgl x hx
    have hp2 : (0 : ℚ) ≤ (p : ℚ) - 1 := by
      have : (1 : ℚ) ≤ (p : ℚ) := by exact_mod_cast hp
      linarith
    have hgl1 := hgl gl (List.mem_cons_self gl rest)
    have hag2 : 0 ≤ (ag * ((p : ℚ) - 1) + gl.1) / (p : ℚ) :=
      div_nonneg (by nlinarith [hgl1.1]) (by positivity)
    have hal2 : 0 ≤ (al * ((p : ℚ) - 1) + gl.2) / (p : ℚ) :=
      div_nonneg (by nlinarith [hgl1.2]) (by positivity)
    simp only [rsiLoop, List.mem_cons] at hx
    rcases hx with hx | hx
    · rw [hx]
      exact rsiVal_bounds _ _ hag2 hal2
    · exact ih _ _ hag2 hal2 (fun z hz => hgl z (List.mem_cons_of_mem _ hz)) x hx

theorem gains_take_nonneg (L : List ℚ) (p : ℕ) :
    (0 : ℚ) ≤ ((L.map (fun d => max d 0)).take p).sum / (p : ℚ) := by
  apply div_nonneg _ (by positivity)
  apply List.sum_nonneg
  intro y hy
  rcases List.mem_map.mp (List.mem_of_mem_take hy) with ⟨z, -, hz⟩
  rw [← hz]
  exact le_max_right z 0

theorem losses_take_nonneg (L : List ℚ) (p : ℕ) :
    (0 : ℚ) ≤ ((L.map (fun d => |min d 0|)).take p).sum / (p : ℚ) := by
  apply div_nonneg _ (by positivity)
  apply List.sum_nonneg
  intro y hy
  rcases List.mem_map.mp (List.mem_of_mem_take hy) with ⟨z, -, hz⟩
  rw [← hz]
  exact abs_nonneg _

theorem zip_gain_loss_nonneg (L : List ℚ) (p : ℕ) :
    ∀ gl ∈ ((L.map (fun d => max d 0)).drop p).zip ((L.map (fun d => |min d 0|)).drop p),
      (0 : ℚ) ≤ gl.1 ∧ (0 : ℚ) ≤ gl.2 := by
  intro gl hgl
  rcases List.of_mem_zip hgl with ⟨hg, hl⟩
  rcases List.mem_map.mp (List.mem_of_mem_drop hg) with ⟨z, -, hz⟩
  rcases List.mem_map.mp (List.mem_of_mem_drop hl) with ⟨w, -, hw⟩
  exact ⟨by rw [← hz]; exact le_max_right z 0, by rw [← hw]; exact abs_nonneg _⟩

theorem rsi_mem_bounds (closes : List ℚ) (p : ℕ) (hp : 1 ≤ p) :
    ∀ i x, (_calculate_rsi closes p).getD i none = some x → 0 ≤ x ∧ x ≤ 100 := by
  intro i x h
  have hmem := getD_eq_some_mem h
  rw [_calculate_rsi] at hmem
  split at hmem
  · rcases List.eq_of_mem_replicate hmem with h1
    cases h1
  · simp only [List.mem_append, List.mem_cons, List.mem_map,
      List.mem_replicate] at hmem
    rcases hmem with ⟨-, h1⟩ | h1 | ⟨y, hy1, hy2⟩
    · cases h1
    · rw [Option.some_inj.mp h1]
      exact rsiVal_bounds _ _ (gains_take_nonneg _ p) (losses_take_nonneg _ p)
    · rw [← Option.some_inj.mp hy2]
      exact rsiLoop_mem_bounds p hp _ _ _ (gains_take_nonneg _ p)
        (losses_take_nonneg _ p) (zip_gain_loss_nonneg _ p) y hy1

theorem stoch_mem_range (v : List (Option ℚ)) (p : ℕ) (hp : 1 ≤ p) :
    ∀ i x, (_calculate_stoch_k v p).getD i none = some x → 0 ≤ x ∧ x ≤ 100 := by
  intro i x h
  rw [_calculate_stoch_k, getD_map_range] at h
  split at h
  · split at h
    · cases h
    · rename_i hin hip
      simp only [stochAt] at h
      split at h
      · cases h
      · rename_i hlen
        split at h
        · rw [← Option.some_inj.mp h]
          norm_num
        · rename_i hne
          -- the reading at position i is non-null and belongs to the window
          have hii : i ∈ List.range' (i + 1 - p) p :=
            List.mem_range'_1.mpr ⟨by omega, by omega⟩
          have hvi : v.getD i none ∈ trailingWindow v p i := by
            rw [trailingWindow]
            exact List.mem_map.mpr ⟨i, hii, rfl⟩
          rcases ho : v.getD i none with - | rv
          · rw [ho] at hvi
            have hlt := length_filterMap_id_lt_of_none hvi
            have htl : (trailingWindow v p i).length = p := by simp [trailingWindow]
            simp only [filtWindow] at hlen
            omega
          · have hrw : rv ∈ filtWindow v p i := by
              rw [filtWindow]
              refine List.mem_filterMap.mpr ⟨some rv, ?_, rfl⟩
              rw [← ho]
              exact hvi
            have hmn := listMin_le _ _ hrw
            have hmx := le_listMax _ _ hrw
            have hlt : listMin (filtWindow v p i) < listMax (filtWindow v p i) :=
              lt_of_le_of_ne (le_trans hmn hmx) (Ne.symm hne)
            rw [ho] at h
            simp only [Option.getD_some] at h
            rw [← Option.some_inj.mp h]
            have h01 : 0 ≤ (rv - listMin (filtWindow v p i)) /
                (listMax (filtWindow v p i) - listMin (filtWindow v p i)) :=
              div_nonneg (by linarith) (by linarith)
            have h02 : (rv - listMin (filtWindow v p i)) /
                (listMax (filtWindow v p i) - listMin (filtWindow v p i)) ≤ 1 :=
              (div_le_one (by linarith)).mpr (by linarith)
            constructor <;> nlinarith
  · cases h

theorem sma_mem_range (v : List (Option ℚ)) (p : ℕ) (hp : 1 ≤ p) (lo hi : ℚ)
    (hv : ∀ j y, v.getD j none = some y → lo ≤ y ∧ y ≤ hi) :
    ∀ i x, (_calculate_sma v p).getD i none = some x → lo ≤ x ∧ x ≤ hi := by
  intro i x h
  rw [_calculate_sma, getD_map_range] at h
  split at h
  · split at h
    · cases h
    · simp only [smaAt] at h
      split at h
      · rename_i hlen
        have hmem : ∀ y ∈ filtWindow v p i, lo ≤ y ∧ y ≤ hi := by
          intro y hy
          rw [filtWindow] at hy
          rcases List.mem_filterMap.mp hy with ⟨o, ho1, ho2⟩
          rw [trailingWindow] at ho1
          rcases List.mem_map.mp ho1 with ⟨j, -, hj2⟩
          exact hv j y (by rw [hj2]; exact ho2)
        have hsum := sum_bounds (filtWindow v p i) lo hi hmem
        rw [hlen] at hsum
        have hppos : (0 : ℚ) < (p : ℚ) := by exact_mod_cast hp
        rw [← Option.some_inj.mp h]
        constructor
        · rw [le_div_iff hppos]
          linarith [hsum.1]
        · rw [div_le_iff hppos]
          linarith [hsum.2]
      · cases h
  · cases h

/-- C9: every non-null value produced by the pipeline lies in
`[0, 100]`: the raw `%K` sequence as well as the `rsi`, `k` and `d`
fields of the assembled readings. -/
theorem calculate_fields_in_range (r s k d : ℕ) (hr : 1 ≤ r) (hs : 1 ≤ s)
    (hk : 1 ≤ k) (hd : 1 ≤ d) (closes : List ℚ) (i : ℕ) (x : ℚ) :
    ((_calculate_stoch_k (_calculate_rsi closes r) s).getD i none = some x →
      0 ≤ x ∧ x ≤ 100) ∧
    ((((StochasticRSICalculator.mk r s k d).calculate closes).getD i
        ⟨none, none, none⟩).rsi = some x → 0 ≤ x ∧ x ≤ 100) ∧
    ((((StochasticRSICalculator.mk r s k d).calculate closes).getD i
        ⟨none, none, none⟩).k = some x → 0 ≤ x ∧ x ≤ 100) ∧
    ((((StochasticRSICalculator.mk r s k d).calculate closes).getD i
        ⟨none, none, none⟩).d = some x → 0 ≤ x ∧ x ≤ 100) := by
  have hraw := stoch_mem_range (_calculate_rsi closes r) s hs
  have hksm := sma_mem_range (_calculate_stoch_k (_calculate_rsi closes r) s) k hk 0 100
    (fun j y hj => hraw j y hj)
  have hdsm := sma_mem_range (_calculate_sma (_calculate_stoch_k
    (_calculate_rsi closes r) s) k) d hd 0 100 (fun j y hj => hksm j y hj)
  refine ⟨fun h => hraw i x h, ?_, ?_, ?_⟩ <;>
    by_cases hg : closes.length < r + s + k + d - 2
  · rw [StochasticRSICalculator.calculate, if_pos hg, getD_replicate]
    split <;> intro h <;> cases h
  · rw [calculate_eq r s k d closes hg, getD_map_range]
    split
    · exact fun h => rsi_mem_bounds closes r hr i x h
    · intro h
      cases h
  · rw [StochasticRSICalculator.calculate, if_pos hg, getD_replicate]
    split <;> intro h <;> cases h
  · rw [calculate_eq r s k d closes hg, getD_map_range]
    split
    · exact fun h => hksm i x h
    · intro h
      cases h
  · rw [StochasticRSICalculator.calculate, if_pos hg, getD_replicate]
    split <;> intro h <;> cases h
  · rw [calculate_eq r s k d closes hg, getD_map_range]
    split
    · exact fun h => hdsm i x h
    · intro h
      cases h

/-- Witness for C9 at a concrete input: the non-null `d` value `50`
at index 4 of the `(2, 2, 1, 2)` run lies in `[0, 100]`. -/
theorem calculate_fields_in_range_witness : (0 : ℚ) ≤ 50 ∧ (50 : ℚ) ≤ 100 :=
  (calculate_fields_in_range 2 2 1 2 (by decide) (by decide) (by decide) (by decide)
    [1, 2, 3, 4, 5] 4 50).2.2.2 (by rw [calculate_eval_2212]; rfl)

/-- C10: `calculate` is deterministic: identical configuration values
and identical price sequences produce identical outputs, with no
dependence on call history or shared state. -/
theorem calculate_deterministic (c1 c2 : StochasticRSICalculator)
    (h1 : c1.rsi_length = c2.rsi_length) (h2 : c1.stoch_length = c2.stoch_length)
    (h3 : c1.k_smooth = c2.k_smooth) (h4 : c1.d_smooth = c2.d_smooth)
    (closes1 closes2 : List ℚ) (hc : closes1 = closes2) :
    c1.calculate closes1 = c2.calculate closes2 := by
  obtain ⟨a1, b1, e1, f1⟩ := c1
  obtain ⟨a2, b2, e2, f2⟩ := c2
  simp only at h1 h2 h3 h4
  subst h1 h2 h3 h4 hc
  rfl

/-- Witness for C10 at a concrete input. -/
theorem calculate_deterministic_witness :
    (StochasticRSICalculator.mk 14 14 3 3).calculate [1, 2] =
      (StochasticRSICalculator.mk 14 14 3 3).calculate [1, 2] :=
  calculate_deterministic (StochasticRSICalculator.mk 14 14 3 3)
    (StochasticRSICalculator.mk 14 14 3 3) rfl rfl rfl rfl [1, 2] [1, 2] rfl

/-! ### Equivalence of the checked embedding with the pure one -/

theorem cdiv_eq_some (a b : ℚ) (hb : b ≠ 0) : cdiv a b = some (a / b) := by
  rw [cdiv, if_neg hb]

theorem get?_eq_some_getD {α : Type} (l : List α) (j : ℕ) (d : α) (h : j < l.length) :
    l[j]? = some (l.getD j d) := by
  rw [List.getElem?_eq_getElem h, List.getD_eq_getElem?_getD, List.getElem?_eq_getElem h]
  rfl

theorem mapM_option_eq_map {α β : Type} (f : α → Option β) (g : α → β) :
    ∀ (l : List α), (∀ a ∈ l, f a = some (g a)) → l.mapM f = some (l.map g) := by
  intro l
  induction l with
  | nil => intro _; rfl
  | cons a t ih =>
    intro h
    rw [List.mapM_cons, h a (List.mem_cons_self a t),
      ih (fun b hb => h b (List.mem_cons_of_mem _ hb))]
    rfl

theorem rsiValE_eq (ag al : ℚ) (hag : 0 ≤ ag) (hal : 0 ≤ al) :
    rsiValE ag al = some (rsiVal ag al) := by
  rw [rsiValE, rsiVal]
  by_cases h : al = 0
  · rw [if_pos h, if_pos h]
  · rw [if_neg h, if_neg h]
    have hal2 : 0 < al := lt_of_le_of_ne hal (Ne.symm h)
    have hrs : 0 ≤ ag / al := div_nonneg hag hal2.le
    have hne : (1 : ℚ) + ag / al ≠ 0 := ne_of_gt (by linarith)
    rw [cdiv_eq_some ag al h]
    simp only [Option.bind_eq_bind, Option.some_bind]
    rw [cdiv_eq_some 100 (1 + ag / al) hne]
    simp only [Option.some_bind]

theorem rsiLoopE_eq (p : ℕ) (hp : 1 ≤ p) (gains losses : List ℚ)
    (hlen : losses.length = gains.length)
    (hg : ∀ x ∈ gains, 0 ≤ x) (hl : ∀ x ∈ losses, 0 ≤ x) :
    ∀ (m a : ℕ) (ag al : ℚ), 0 ≤ ag → 0 ≤ al → 1 ≤ a →
      a - 1 + m = gains.length →
      rsiLoopE p gains losses ag al (List.range' a m) =
        some (rsiLoop p ag al ((gains.drop (a - 1)).zip (losses.drop (a - 1)))) := by
  intro m
  induction m with
  | zero =>
    intro a ag al _ _ _ hbound
    rw [List.drop_eq_nil_of_le (by omega), List.drop_eq_nil_of_le (by omega)]
    rfl
  | succ m ih =>
    intro a ag al hag hal ha hbound
    have hai : a - 1 < gains.length := by omega
    have hai2 : a - 1 < losses.length := by omega
    have hpne : (p : ℚ) ≠ 0 := by
      have : (0 : ℚ) < (p : ℚ) := by exact_mod_cast hp
      exact ne_of_gt this
    have hp2 : (0 : ℚ) ≤ (p : ℚ) - 1 := by
      have : (1 : ℚ) ≤ (p : ℚ) := by exact_mod_cast hp
      linarith
    have hg1 : 0 ≤ gains[a - 1] := hg _ (List.getElem_mem hai)
    have hl1 : 0 ≤ losses[a - 1] := hl _ (List.getElem_mem hai2)
    have hag2 : 0 ≤ (ag * ((p : ℚ) - 1) + gains[a - 1]) / (p : ℚ) :=
      div_nonneg (by nlinarith) (by positivity)
    have hal2 : 0 ≤ (al * ((p : ℚ) - 1) + losses[a - 1]) / (p : ℚ) :=
      div_nonneg (by nlinarith) (by positivity)
    rw [List.range'_succ]
    simp only [rsiLoopE]
    rw [List.getElem?_eq_getElem hai]
    simp only [Option.bind_eq_bind, Option.some_bind]
    rw [List.getElem?_eq_getElem hai2]
    simp only [Option.some_bind]
    rw [cdiv_eq_some _ _ hpne]
    simp only [Option.some_bind]
    rw [cdiv_eq_some _ _ hpne]
    simp only [Option.some_bind]
    rw [rsiValE_eq _ _ hag2 hal2]
    simp only [Option.some_bind]
    rw [ih (a + 1) _ _ hag2 hal2 (by omega) (by omega)]
    simp only [Option.some_bind, Nat.add_sub_cancel]
    rw [List.drop_eq_getElem_cons hai, List.drop_eq_getElem_cons hai2,
      show a - 1 + 1 = a from by omega, List.zip_cons_cons]
    simp only [rsiLoop]

theorem mem_gains_nonneg (L : List ℚ) : ∀ x ∈ L.map (fun d => max d 0), (0 : ℚ) ≤ x := by
  intro x hx
  rcases List.mem_map.mp hx with ⟨z, -, hz⟩
  rw [← hz]
  exact le_max_right z 0

theorem mem_losses_nonneg (L : List ℚ) : ∀ x ∈ L.map (fun d => |min d 0|), (0 : ℚ) ≤ x := by
  intro x hx
  rcases List.mem_map.mp hx with ⟨z, -, hz⟩
  rw [← hz]
  exact abs_nonneg _

theorem _calculate_rsiE_eq (closes : List ℚ) (p : ℕ) (hp : 1 ≤ p) :
    _calculate_rsiE closes p = some (_calculate_rsi closes p) := by
  have hpne : (p : ℚ) ≠ 0 := by
    have : (0 : ℚ) < (p : ℚ) := by exact_mod_cast hp
    exact ne_of_gt this
  rw [_calculate_rsiE, _calculate_rsi]
  by_cases h : closes.length < p + 1
  · rw [if_pos h, if_pos h]
  · rw [if_neg h, if_neg h]
    have hδ : (List.range' 1 (closes.length - 1)).mapM (fun i => do
        let a ← closes[i]?
        let b ← closes[i - 1]?
        some (a - b)) = some ((List.range (closes.length - 1)).map
          (fun i => closes.getD (i + 1) 0 - closes.getD i 0)) := by
      rw [mapM_option_eq_map _ (fun i => closes.getD i 0 - closes.getD (i - 1) 0) _ ?_]
      · congr 1
        rw [List.range'_eq_map_range, List.map_map]
        apply List.map_congr_left
        intro i hi
        simp only [Function.comp]
        rw [show 1 + i - 1 = i from by omega, Nat.add_comm 1 i]
      · intro j hj
        rcases List.mem_range'_1.mp hj with ⟨hj1, hj2⟩
        rw [get?_eq_some_getD closes j 0 (by omega)]
        simp only [Option.bind_eq_bind, Option.some_bind]
        rw [get?_eq_some_getD closes (j - 1) 0 (by omega)]
        simp only [Option.some_bind]
    rw [hδ]
    simp only [Option.bind_eq_bind, Option.some_bind]
    rw [cdiv_eq_some _ _ hpne]
    simp only [Option.some_bind]
    rw [cdiv_eq_some _ _ hpne]
    simp only [Option.some_bind]
    rw [rsiValE_eq _ _ (gains_take_nonneg _ p) (losses_take_nonneg _ p)]
    simp only [Option.some_bind]
    rw [rsiLoopE_eq p hp _ _ (by simp) (mem_gains_nonneg _) (mem_losses_nonneg _)
      (closes.length - (p + 1)) (p + 1) _ _ (gains_take_nonneg _ p)
      (losses_take_nonneg _ p) (by omega) (by simp; omega)]
    simp only [Option.some_bind, Nat.add_sub_cancel]

theorem buildWindowE_eq (v : List (Option ℚ)) :
    ∀ (js : List ℕ), (∀ j ∈ js, j < v.length) →
      buildWindowE v js = some ((js.map (fun j => v.getD j none)).filterMap id) := by
  intro js
  induction js with
  | nil => intro _; rfl
  | cons j t ih =>
    intro h
    simp only [buildWindowE]
    rw [get?_eq_some_getD v j none (h j (List.mem_cons_self j t))]
    simp only [Option.bind_eq_bind, Option.some_bind]
    rw [ih (fun b hb => h b (List.mem_cons_of_mem _ hb))]
    simp only [Option.some_bind]
    cases hv : v.getD j none with
    | none => simp only [List.map_cons, List.filterMap_cons, id_eq, hv]
    | some y => simp only [List.map_cons, List.filterMap_cons, id_eq, hv]

theorem stochAtE_eq (v : List (Option ℚ)) (p i : ℕ) (hp : 1 ≤ p) (hpi : p ≤ i + 1)
    (hi : i < v.length) : stochAtE v p i = some (stochAt v p i) := by
  have hjs : ∀ j ∈ List.range' (i + 1 - p) p, j < v.length := by
    intro j hj
    rcases List.mem_range'_1.mp hj with ⟨h1, h2⟩
    omega
  rw [stochAtE, buildWindowE_eq v _ hjs]
  simp only [Option.bind_eq_bind, Option.some_bind, stochAt, filtWindow, trailingWindow]
  by_cases hlen :
      (((List.range' (i + 1 - p) p).map (fun j => v.getD j none)).filterMap id).length < p
  · rw [if_pos hlen, if_pos hlen]
  · rw [if_neg hlen, if_neg hlen]
    have hW : ((List.range' (i + 1 - p) p).map (fun j => v.getD j none)).filterMap id ≠ [] := by
      intro h0
      rw [h0] at hlen
      simp at hlen
      omega
    obtain ⟨x, xs, hxx⟩ := List.exists_cons_of_ne_nil hW
    have hcmin : cmin (((List.range' (i + 1 - p) p).map
        (fun j => v.getD j none)).filterMap id) =
        some (listMin (((List.range' (i + 1 - p) p).map
          (fun j => v.getD j none)).filterMap id)) := by
      rw [hxx]; rfl
    have hcmax : cmax (((List.range' (i + 1 - p) p).map
        (fun j => v.getD j none)).filterMap id) =
        some (listMax (((List.range' (i + 1 - p) p).map
          (fun j => v.getD j none)).filterMap id)) := by
      rw [hxx]; rfl
    rw [hcmin]
    simp only [Option.some_bind]
    rw [hcmax]
    simp only [Option.some_bind]
    by_cases hdeg : listMax (((List.range' (i + 1 - p) p).map
        (fun j => v.getD j none)).filterMap id) =
        listMin (((List.range' (i + 1 - p) p).map (fun j => v.getD j none)).filterMap id)
    · rw [if_pos hdeg, if_pos hdeg]
    · rw [if_neg hdeg, if_neg hdeg]
      rw [get?_eq_some_getD v i none hi]
      simp only [Option.some_bind]
      cases hri : v.getD i none with
      | none =>
        exfalso
        have hmemi : (none : Option ℚ) ∈ (List.range' (i + 1 - p) p).map
            (fun j => v.getD j none) :=
          List.mem_map.mpr ⟨i, List.mem_range'_1.mpr ⟨by omega, by omega⟩, hri⟩
        have hlt := length_filterMap_id_lt_of_none hmemi
        have hml : ((List.range' (i + 1 - p) p).map (fun j => v.getD j none)).length = p := by
          simp
        omega
      | some rv =>
        simp only [Option.some_bind]
        rw [cdiv_eq_some _ _ (sub_ne_zero.mpr hdeg)]
        simp only [Option.some_bind, Option.getD_some]

theorem smaAtE_eq (v : List (Option ℚ)) (p i : ℕ) (hp : 1 ≤ p) (hpi : p ≤ i + 1)
    (hi : i < v.length) : smaAtE v p i = some (smaAt v p i) := by
  have hpne : (p : ℚ) ≠ 0 := by
    have : (0 : ℚ) < (p : ℚ) := by exact_mod_cast hp
    exact ne_of_gt this
  have hjs : ∀ j ∈ List.range' (i + 1 - p) p, j < v.length := by
    intro j hj
    rcases List.mem_range'_1.mp hj with ⟨h1, h2⟩
    omega
  rw [smaAtE, buildWindowE_eq v _ hjs]
  simp only [Option.bind_eq_bind, Option.some_bind, smaAt, filtWindow, trailingWindow]
  by_cases hlen :
      (((List.range' (i + 1 - p) p).map (fun j => v.getD j none)).filterMap id).length = p
  · rw [if_pos hlen, if_pos hlen, cdiv_eq_some _ _ hpne]
    simp only [Option.some_bind]
  · rw [if_neg hlen, if_neg hlen]

theorem _calculate_stoch_kE_eq (v : List (Option ℚ)) (p : ℕ) (hp : 1 ≤ p) :
    _calculate_stoch_kE v p = some (_calculate_stoch_k v p) := by
  rw [_calculate_stoch_kE, _calculate_stoch_k]
  apply mapM_option_eq_map
  intro i hi
  have hi2 : i < v.length := List.mem_range.mp hi
  by_cases hip : i + 1 < p
  · rw [if_pos hip, if_pos hip]
  · rw [if_neg hip, if_neg hip]
    exact stochAtE_eq v p i hp (by omega) hi2

theorem _calculate_smaE_eq (v : List (Option ℚ)) (p : ℕ) (hp : 1 ≤ p) :
    _calculate_smaE v p = some (_calculate_sma v p) := by
  rw [_calculate_smaE, _calculate_sma]
  apply mapM_option_eq_map
  intro i hi
  have hi2 : i < v.length := List.mem_range.mp hi
  by_cases hip : i + 1 < p
  · rw [if_pos hip, if_pos hip]
  · rw [if_neg hip, if_neg hip]
    exact smaAtE_eq v p i hp (by omega) hi2

/-- C8: for every positive configuration and every price sequence, the
checked pipeline — in which every division, every list index, every
`min`/`max` call and every arithmetic use of a nullable value is
checked — completes without error and agrees with the pure pipeline:
nullability is the sole partial-result signal, never an exception. -/
theorem calculateE_eq (r s k d : ℕ) (hr : 1 ≤ r) (hs : 1 ≤ s) (hk : 1 ≤ k) (hd : 1 ≤ d)
    (closes : List ℚ) :
    calculateE (StochasticRSICalculator.mk r s k d) closes =
      some ((StochasticRSICalculator.mk r s k d).calculate closes) := by
  rw [calculateE, StochasticRSICalculator.calculate]
  by_cases hg : closes.length < r + s + k + d - 2
  · rw [if_pos hg, if_pos hg]
  · rw [if_neg hg, if_neg hg]
    rw [_calculate_rsiE_eq closes r hr]
    simp only [Option.bind_eq_bind, Option.some_bind]
    rw [_calculate_stoch_kE_eq _ s hs]
    simp only [Option.some_bind]
    rw [_calculate_smaE_eq _ k hk]
    simp only [Option.some_bind]
    rw [_calculate_smaE_eq _ d hd]
    simp only [Option.some_bind]
    apply mapM_option_eq_map
    intro i hi
    have hi2 : i < closes.length := List.mem_range.mp hi
    have e1 := _calculate_rsi_length closes r
    have e2 := _calculate_stoch_k_length (_calculate_rsi closes r) s
    have e3 := _calculate_sma_length (_calculate_stoch_k (_calculate_rsi closes r) s) k
    have e4 := _calculate_sma_length (_calculate_sma (_calculate_stoch_k
      (_calculate_rsi closes r) s) k) d
    rw [get?_eq_some_getD _ i none (by omega)]
    simp only [Option.bind_eq_bind, Option.some_bind]
    rw [get?_eq_some_getD _ i none (by omega)]
    simp only [Option.some_bind]
    rw [get?_eq_some_getD _ i none (by omega)]
    simp only [Option.some_bind]

/-- Witness for C8 at a concrete input. -/
theorem calculateE_eq_witness :
    calculateE (StochasticRSICalculator.mk 2 2 1 1) [1, 2, 3, 4] =
      some ((StochasticRSICalculator.mk 2 2 1 1).calculate [1, 2, 3, 4]) :=
  calculateE_eq 2 2 1 1 (by decide) (by decide) (by decide) (by decide) [1, 2, 3, 4]

end StochRSI
